import Mathlib

/-!
Verification development for the swarmflow task-queue / scheduler / worker core.

The definitions below are a shallow embedding of the Python source:
- `src/core/schemas/schemas.py`        (class SwarmTask)
- `src/core/redis_engine/redis_engine.py` (class RedisEngine)
- `src/worker_agent/main.py`           (process_task / process_queue)
- `src/core/server/main.py`            (check_conditions)

Modelling conventions:
- Redis lists are Lean lists read left to right; LPUSH is cons at the head,
  RPOP takes the last element, RPOPLPUSH atomically does both.
- Redis sorted sets are Lean lists of entries that carry their score; ZADD
  appends, ZREM removes the member, ZRANGEBYSCORE filters by score.  (A real
  zset iterates in score order; every property proved here is insensitive to
  the iteration order, and uniqueness of members is supplied as a Nodup
  hypothesis where a proof needs it.)
- Timestamps and intervals are integers (seconds); `datetime.timedelta`
  arithmetic becomes integer arithmetic in seconds.
- The JSON documents produced by pydantic `model_dump_json` for a SwarmTask
  are flat objects (scalars plus one nested object of scalars), modelled by
  `JsonObj` below; `model_validate_json` is `decodeTask`.
- Each call that Python runs against the network (Redis commands, the AI
  fill, HTTP GET/POST) is an atomic step of the model; failure outcomes of
  the external calls are supplied by a `WorkerEnv` oracle.
-/

/-- Scalar values that can sit in a SwarmTask `fields` mapping:
`dict[str, str | int | float | None]` in `schemas.py`.  Python floats are
modelled as rationals. -/
inductive FieldValue where
  | vStr (s : String)
  | vInt (n : Int)
  | vFloat (q : Rat)
  | vNull
deriving DecidableEq, Repr

/-- The `type` field of a SwarmTask: `Literal["human", "ai"]`. -/
inductive TaskType where
  | human
  | ai
deriving DecidableEq, Repr

/-- Embedding of `SwarmTask` from `src/core/schemas/schemas.py`.  The
`fields` dict is an insertion-ordered association list. -/
structure SwarmTask where
  description : String
  tool : String
  report_url : String
  callback_url : String
  fields : List (String × FieldValue)
  type : TaskType
  external : Bool
  starter : Bool
deriving DecidableEq, Repr

/-- JSON scalar, as appearing in a dumped SwarmTask document. -/
inductive JScalar where
  | js (s : String)
  | ji (n : Int)
  | jq (q : Rat)
  | jb (b : Bool)
  | jnull
deriving DecidableEq, Repr

/-- JSON value at the top level of a dumped SwarmTask document: a scalar or
one nested object of scalars (the `fields` dict). -/
inductive JVal where
  | scalar (v : JScalar)
  | obj (kvs : List (String × JScalar))
deriving DecidableEq, Repr

/-- A serialized task document: the JSON object written to Redis by
`model_dump_json` and parsed back by `model_validate_json`. -/
abbrev JsonObj := List (String × JVal)

/-- Serialization of one field value (`model_dump_json` on the union type). -/
def encodeFV : FieldValue → JScalar
  | .vStr s => .js s
  | .vInt n => .ji n
  | .vFloat q => .jq q
  | .vNull => .jnull

/-- Parsing of one field value back into `str | int | float | None`; a JSON
bool is not a member of the union, so it is rejected. -/
def decodeFV : JScalar → Option FieldValue
  | .js s => some (.vStr s)
  | .ji n => some (.vInt n)
  | .jq q => some (.vFloat q)
  | .jb _ => none
  | .jnull => some .vNull

/-- String form of the `type` literal. -/
def typeToStr : TaskType → String
  | .human => "human"
  | .ai => "ai"

/-- Validation of the `type` literal. -/
def parseType : String → Option TaskType
  | "human" => some .human
  | "ai" => some .ai
  | _ => none

/-- Serialization of the `fields` dict. -/
def encodeFields (l : List (String × FieldValue)) : List (String × JScalar) :=
  l.map (fun kv => (kv.1, encodeFV kv.2))

/-- Validation of the `fields` dict. -/
def decodeFields : List (String × JScalar) → Option (List (String × FieldValue))
  | [] => some []
  | (k, v) :: rest => do
    let fv ← decodeFV v
    let tail ← decodeFields rest
    some ((k, fv) :: tail)

/-- Embedding of `SwarmTask.model_dump_json`: the JSON object document. -/
def encodeTask (t : SwarmTask) : JsonObj :=
  [("description", .scalar (.js t.description)),
   ("tool", .scalar (.js t.tool)),
   ("report_url", .scalar (.js t.report_url)),
   ("callback_url", .scalar (.js t.callback_url)),
   ("fields", .obj (encodeFields t.fields)),
   ("type", .scalar (.js (typeToStr t.type))),
   ("external", .scalar (.jb t.external)),
   ("starter", .scalar (.jb t.starter))]

/-- Projection of a JSON value to a string. -/
def asStr : JVal → Option String
  | .scalar (.js s) => some s
  | _ => none

/-- Projection of a JSON value to a bool. -/
def asBool : JVal → Option Bool
  | .scalar (.jb b) => some b
  | _ => none

/-- Projection of a JSON value to an object. -/
def asObj : JVal → Option (List (String × JScalar))
  | .obj kvs => some kvs
  | _ => none

/-- Embedding of `SwarmTask.model_validate_json` on a document. -/
def decodeTask (j : JsonObj) : Option SwarmTask := do
  let d ← (j.lookup "description").bind asStr
  let tool ← (j.lookup "tool").bind asStr
  let r ← (j.lookup "report_url").bind asStr
  let cb ← (j.lookup "callback_url").bind asStr
  let fobj ← (j.lookup "fields").bind asObj
  let fs ← decodeFields fobj
  let tys ← (j.lookup "type").bind asStr
  let ty ← parseType tys
  let ext ← (j.lookup "external").bind asBool
  let st ← (j.lookup "starter").bind asBool
  some ⟨d, tool, r, cb, fs, ty, ext, st⟩

/-! ### Queue store (Redis list `swarm_tasks`) -/

/-- Redis LPUSH on a list value. -/
def lpush {α : Type} (x : α) (l : List α) : List α := x :: l

/-- Redis RPOP on a list value: removes and returns the last element. -/
def rpop {α : Type} (l : List α) : Option (α × List α) :=
  match l.getLast? with
  | none => none
  | some x => some (x, l.dropLast)

/-- Embedding of `RedisEngine.add_task`: validate, then LPUSH the dumped
JSON onto the `swarm_tasks` list. -/
def add_task (t : SwarmTask) (q : List JsonObj) : List JsonObj :=
  lpush (encodeTask t) q

/-- Embedding of `RedisEngine.get_task`: RPOP from `swarm_tasks` and
validate the JSON.  (In Python an unparseable element raises; every element
placed by `add_task` parses, and the claims only evaluate such queues.) -/
def get_task (q : List JsonObj) : Option SwarmTask × List JsonObj :=
  match rpop q with
  | none => (none, q)
  | some (j, q') => (decodeTask j, q')

/-- A sequence of enqueues: `add_task` applied left to right. -/
def enqueueAll (ts : List SwarmTask) (q : List JsonObj) : List JsonObj :=
  ts.foldl (fun acc t => add_task t acc) q

/-- A bounded sequence of reservations with no interleaved concurrency:
`get_task` applied repeatedly, stopping at an empty or unparseable queue. -/
def drainN : Nat → List JsonObj → List SwarmTask × List JsonObj
  | 0, q => ([], q)
  | n + 1, q =>
    match get_task q with
    | (none, q') => ([], q')
    | (some t, q') =>
      let r := drainN n q'
      (t :: r.1, r.2)

/-! ### Schedule store (Redis sorted set `scheduled_starter_tasks`) -/

/-- Embedding of one member of the `scheduled_starter_tasks` zset: the
`schedule_info` JSON written by `RedisEngine.schedule_task` together with
its zset score (`next_fire_at`).  The `task` field holds the validated
task; the JSON it is stored as round-trips by `decodeTask_encodeTask`. -/
structure ScheduleEntry where
  task_id : String
  task : SwarmTask
  schedule_type : String
  interval : Int
  last_run : Option Int
  score : Int
deriving DecidableEq, Repr

/-- Embedding of `RedisEngine._calculate_next_run`: the sentinel `-1` is
replaced by `0`, the unit defaults to minutes, and the result is `now`
plus the interval in seconds. -/
def calcNextRun (now : Int) (schedule_type : String) (interval : Int) : Int :=
  let i := if interval = -1 then 0 else interval
  if schedule_type = "minutes" then now + i * 60
  else if schedule_type = "hours" then now + i * 3600
  else if schedule_type = "days" then now + i * 86400
  else now + i * 60

/-- Redis ZADD of a member (a zset stores each member once; our list model
appends). -/
def zadd (e : ScheduleEntry) (s : List ScheduleEntry) : List ScheduleEntry :=
  s ++ [e]

/-- Redis ZREM of a member. -/
def zrem (e : ScheduleEntry) (s : List ScheduleEntry) : List ScheduleEntry :=
  s.filter (fun x => x != e)

/-- Embedding of `RedisEngine.schedule_task`: the generated uuid is passed
in as `task_id`; the entry is stored keyed by `_calculate_next_run` and the
id is returned. -/
def schedule_task (t : SwarmTask) (schedule_type : String) (interval : Int)
    (now : Int) (task_id : String) (s : List ScheduleEntry) :
    String × List ScheduleEntry :=
  let e : ScheduleEntry :=
    ⟨task_id, t, schedule_type, interval, none, calcNextRun now schedule_type interval⟩
  (task_id, zadd e s)

/-- Membership test of `ZRANGEBYSCORE scheduled_starter_tasks 0 current_time`:
both bounds are inclusive. -/
def isDue (now : Int) (e : ScheduleEntry) : Bool :=
  decide (0 ≤ e.score) && decide (e.score ≤ now)

/-- The updated `schedule_info` written back by `get_due_tasks` for a fired
entry: `last_run` set to the firing time, score recomputed. -/
def updEntry (now : Int) (e : ScheduleEntry) : ScheduleEntry :=
  { e with last_run := some now, score := calcNextRun now e.schedule_type e.interval }

/-- One iteration of the `for task_data in due_tasks` loop body of
`RedisEngine.get_due_tasks`: non-starter entries are skipped; a starter
entry is removed, re-added with the new score unless `interval == -1`, and
its task appended to `tasks_to_run`. -/
def dueStep (now : Int) (acc : List SwarmTask × List ScheduleEntry)
    (e : ScheduleEntry) : List SwarmTask × List ScheduleEntry :=
  if e.task.starter then
    let st1 := zrem e acc.2
    let st2 := if e.interval != -1 then zadd (updEntry now e) st1 else st1
    (acc.1 ++ [e.task], st2)
  else acc

/-- Embedding of `RedisEngine.get_due_tasks`: iterate the loop body over
the due snapshot, returning `tasks_to_run` and the schedule store after the
call. -/
def get_due_tasks (now : Int) (s : List ScheduleEntry) :
    List SwarmTask × List ScheduleEntry :=
  (s.filter (isDue now)).foldl (dueStep now) ([], s)

/-- One iteration of the `RedisEngine._run_scheduler` loop: get the due
tasks and push each onto the main queue via `execute_task`/`add_task`. -/
def run_scheduler_tick (now : Int) (s : List ScheduleEntry) (q : List JsonObj) :
    List ScheduleEntry × List JsonObj :=
  let r := get_due_tasks now s
  (r.2, r.1.foldl (fun acc t => add_task t acc) q)

/-- The schedule store after a sequence of scheduler ticks at the given
times. -/
def ticksFold (times : List Int) (s : List ScheduleEntry) : List ScheduleEntry :=
  times.foldl (fun st t => (get_due_tasks t st).2) s

/-- Truthiness of the updated-fields map of `modify_starter_task`: Python
`if schedule_type:` / `if interval:` skip `None`, the empty string, and the
integer `0`. -/
def modifyFields (ost : Option String) (oi : Option Int) (e : ScheduleEntry) :
    ScheduleEntry :=
  let st := match ost with
    | some u => if u != "" then u else e.schedule_type
    | none => e.schedule_type
  let iv := match oi with
    | some i => if i != 0 then i else e.interval
    | none => e.interval
  { e with schedule_type := st, interval := iv }

/-- The `for task_data, score in tasks` loop of
`RedisEngine.modify_starter_task`: walk the zset snapshot; at the first
entry whose `task_id` matches, update the truthy fields, remove the old
member, add the updated member keyed by the recomputed next run, and
return `True`; return `False` if no entry matches. -/
def modify_loop (tid : String) (ost : Option String) (oi : Option Int) (now : Int) :
    List ScheduleEntry → List ScheduleEntry → Bool × List ScheduleEntry
  | [], s => (false, s)
  | e :: rest, s =>
    if e.task_id = tid then
      let e1 := modifyFields ost oi e
      let e2 := { e1 with score := calcNextRun now e1.schedule_type e1.interval }
      (true, zadd e2 (zrem e s))
    else modify_loop tid ost oi now rest s

/-- Embedding of `RedisEngine.modify_starter_task`. -/
def modify_starter_task (tid : String) (ost : Option String) (oi : Option Int)
    (now : Int) (s : List ScheduleEntry) : Bool × List ScheduleEntry :=
  modify_loop tid ost oi now s s

/-- A concrete starter task used by the witnesses. -/
def sampleTask : SwarmTask :=
  ⟨"starter task", "", "", "http://example/cb", [("field1", .vNull)], .ai, false, true⟩

/-- A concrete non-starter task used by the witnesses. -/
def samplePlainTask : SwarmTask :=
  ⟨"plain task", "", "", "http://example/cb", [("field1", .vNull)], .ai, false, false⟩

/-- A concrete recurring schedule entry used by the witnesses. -/
def sampleEntry : ScheduleEntry := ⟨"id1", sampleTask, "minutes", 5, none, 50⟩

/-- A concrete fire-once schedule entry used by the witnesses. -/
def sampleOnceEntry : ScheduleEntry := ⟨"id2", sampleTask, "minutes", -1, none, 50⟩

/-- A concrete schedule entry around a non-starter task, used by the
witnesses. -/
def samplePlainEntry : ScheduleEntry := ⟨"id3", samplePlainTask, "minutes", 5, none, 50⟩

/-- A concrete recurring entry used by the modify counterexample and
witness. -/
def cexEntry : ScheduleEntry := ⟨"cex", sampleTask, "minutes", 5, none, 100⟩

/-! ### Worker agent (src/worker_agent/main.py) -/

/-- Outcomes of the external calls made inside one `process_task` run:
the report GET (`ok (some d)` = HTTP 200 with data, `ok none` = non-200,
`error` = the call raised), the AI fill together with the JSON parse of its
reply, and the callback POST. -/
structure WorkerEnv where
  reportFetch : Except Unit (Option JsonObj)
  fillResult : Except Unit (List (String × FieldValue))
  callbackOk : Bool

/-- Boolean error test on an `Except`. -/
def isErr {e a : Type} : Except e a → Bool
  | .error _ => true
  | .ok _ => false

/-- The fill guard of `process_task`:
`task.type == "ai" and all(v is None for v in task.fields.values())`. -/
def needsFill (t : SwarmTask) : Bool :=
  (t.type == TaskType.ai) && t.fields.all (fun kv => kv.2 == FieldValue.vNull)

/-- Embedding of `process_task`: fetch the report when `report_url` is
set, generate field values when the fill guard holds, POST to the callback
and LPUSH onto `finished`.  Any raise inside the body is caught by the
surrounding `except`, so the result is `some finishedTask` when the
callback call succeeded (the task that is pushed to `finished`) and `none`
when the task was dropped at any stage. -/
def process_task (env : WorkerEnv) (t : SwarmTask) : Option SwarmTask :=
  match (if t.report_url != "" then env.reportFetch else Except.ok none) with
  | .error _ => none
  | .ok _ =>
    match (if needsFill t then
             match env.fillResult with
             | .error _ => Except.error ()
             | .ok vs => Except.ok { t with fields := vs }
           else Except.ok t) with
    | .error _ => none
    | .ok t2 => if env.callbackOk then some t2 else none

/-- The Redis state a worker touches: the main queue, this worker's
`processing:{worker_id}` list and the `finished` list. -/
structure WorkerState where
  queue : List JsonObj
  inflight : List JsonObj
  finished : List JsonObj
deriving DecidableEq, Repr

/-- One iteration of the `process_queue` loop: RPOPLPUSH from the queue
into the in-flight list; validate; run `process_task`; then LREM the
task from the in-flight list (`count 1` removes the first occurrence).
An invalid document would make `model_validate_json` raise outside the
`try`, leaving the document in flight. -/
def process_queue_iter (env : WorkerEnv) (st : WorkerState) : WorkerState :=
  match rpop st.queue with
  | none => st
  | some (td, q2) =>
    match decodeTask td with
    | none => ⟨q2, lpush td st.inflight, st.finished⟩
    | some task =>
      match process_task env task with
      | some t2 => ⟨q2, (lpush td st.inflight).erase td, lpush (encodeTask t2) st.finished⟩
      | none => ⟨q2, (lpush td st.inflight).erase td, st.finished⟩

/-- A worker environment whose callback POST fails, used by the witness. -/
def envCallbackFail : WorkerEnv := ⟨Except.ok none, Except.ok [], false⟩

/-! ### Workflow chainer (check_conditions in src/core/server/main.py) -/

/-- One per-table write result handed to `check_conditions`: the element
`{"table": ..., "data": {...}}` that `execute_form` appends per operation. -/
structure TableResult where
  table : String
  data : List (String × FieldValue)
deriving DecidableEq, Repr

/-- Embedding of `check_conditions`: an empty conditions dict is
immediately true; otherwise every result row is checked against the
conditions for its table (`conditions.get(result["table"], {})`, so a
table without conditions is skipped), each expected value against
`result["data"].get(field)` (`None`, i.e. `vNull`, when the field is
absent).  The `callable(expected_value)` branch of the source is dead for
the plain data values modelled here: conditions parsed from the stored
form definitions are never Python callables. -/
def check_conditions (conds : List (String × List (String × FieldValue)))
    (results : List TableResult) : Bool :=
  if conds.isEmpty then true
  else results.all (fun r =>
    ((conds.lookup r.table).getD []).all
      (fun fc => ((r.data.lookup fc.1).getD FieldValue.vNull) == fc.2))

/-! ### Concurrent reservations (process_queue across workers) -/

/-- The in-flight list of one worker (`processing:{worker_id}`), read from
the keyed store. -/
def getProc (w : String) (l : List (String × List JsonObj)) : List JsonObj :=
  (l.lookup w).getD []

/-- Write one worker's in-flight list back into the keyed store. -/
def setProc (w : String) (v : List JsonObj) :
    List (String × List JsonObj) → List (String × List JsonObj)
  | [] => [(w, v)]
  | kv :: rest => if kv.1 = w then (w, v) :: rest else kv :: setProc w v rest

/-- The shared Redis state seen by the worker pool: the main queue and the
per-worker in-flight lists. -/
structure PoolState where
  queue : List JsonObj
  inflight : List (String × List JsonObj)

/-- One reservation: the single atomic
`RPOPLPUSH swarm_tasks processing:{worker_id}` command issued by worker
`w` in `process_queue`. -/
def reserve (w : String) (s : PoolState) : Option JsonObj × PoolState :=
  match rpop s.queue with
  | none => (none, s)
  | some (td, q2) =>
    (some td, ⟨q2, setProc w (lpush td (getProc w s.inflight)) s.inflight⟩)

/-- An interleaving of reservations: because each `RPOPLPUSH` is a single
atomic Redis command, any concurrent execution by a pool of workers is
equivalent to running the commands in the order the store serialized them;
`ws` is that serialization order (one entry per reserve call, by worker
id). -/
def runReserves : List String → PoolState → List (Option JsonObj) × PoolState
  | [], s => ([], s)
  | w :: ws, s =>
    let r := reserve w s
    let rest := runReserves ws r.2
    (r.1 :: rest.1, rest.2)

theorem decodeFV_encodeFV (v : FieldValue) : decodeFV (encodeFV v) = some v := by
  cases v <;> rfl

theorem decodeFields_encodeFields (l : List (String × FieldValue)) :
    decodeFields (encodeFields l) = some l := by
  induction l with
  | nil => rfl
  | cons kv rest ih =>
    simp [encodeFields] at ih
    simp [encodeFields, decodeFields, decodeFV_encodeFV, ih]

theorem parseType_typeToStr (ty : TaskType) : parseType (typeToStr ty) = some ty := by
  cases ty <;> rfl

/-- Round-trip of the serialization itself: validating a dumped task yields
the original in every field. -/
theorem decodeTask_encodeTask (t : SwarmTask) : decodeTask (encodeTask t) = some t := by
  simp [decodeTask, encodeTask, List.lookup, asStr, asBool, asObj,
    decodeFields_encodeFields, parseType_typeToStr, Option.bind]

theorem enqueueAll_eq (ts : List SwarmTask) (q : List JsonObj) :
    enqueueAll ts q = (ts.map encodeTask).reverse ++ q := by
  induction ts generalizing q with
  | nil => simp [enqueueAll]
  | cons t ts ih =>
    simp [enqueueAll, add_task, lpush] at ih ⊢
    rw [ih]

theorem rpop_concat {α : Type} (l : List α) (x : α) :
    rpop (l ++ [x]) = some (x, l) := by
  simp [rpop, List.getLast?_concat]

theorem drainN_rev (ts : List SwarmTask) :
    drainN ts.length ((ts.map encodeTask).reverse) = (ts, []) := by
  induction ts with
  | nil => rfl
  | cons t ts ih =>
    have hrev : ((t :: ts).map encodeTask).reverse
        = (ts.map encodeTask).reverse ++ [encodeTask t] := by simp
    simp only [List.length_cons, hrev, drainN, get_task, rpop_concat,
      decodeTask_encodeTask, ih]

/-- C9: a Task serialized into the store by `add_task` and then reserved by
`get_task` deserializes to a value equal to the original in every field. -/
theorem c9_roundtrip (t : SwarmTask) : get_task (add_task t []) = (some t, []) := by
  simp [add_task, lpush, get_task, rpop, decodeTask_encodeTask]

/-- C7: with no interleaved concurrency, reservation order follows enqueue
order: draining a queue built by enqueuing `ts` in order returns exactly
`ts` in FIFO order and empties the queue. -/
theorem c7_fifo (ts : List SwarmTask) :
    drainN ts.length (enqueueAll ts []) = (ts, []) := by
  rw [enqueueAll_eq]
  simpa using drainN_rev ts

theorem mem_zrem {x e : ScheduleEntry} {s : List ScheduleEntry}
    (hx : x ∈ s) (hne : x ≠ e) : x ∈ zrem e s := by
  simp [zrem, List.mem_filter, hx, hne]

theorem zrem_sublist (e : ScheduleEntry) (s : List ScheduleEntry) :
    List.Sublist (zrem e s) s :=
  List.filter_sublist s

theorem mem_of_mem_zrem {x e : ScheduleEntry} {s : List ScheduleEntry}
    (hx : x ∈ zrem e s) : x ∈ s :=
  (zrem_sublist e s).mem hx

theorem ne_of_mem_zrem {x e : ScheduleEntry} {s : List ScheduleEntry}
    (hx : x ∈ zrem e s) : x ≠ e := by
  have := (List.mem_filter.mp hx).2
  simpa using this

/-- Characterization of the `get_due_tasks` loop: folding the loop body over
a duplicate-free snapshot `d` of members of the store `st` appends the
starter tasks of `d` to the accumulator, removes the starter members of `d`
from the store, and appends the rescheduled copies of those whose interval
is not the fire-once sentinel. -/
theorem dueFold_char (now : Int) :
    ∀ (d : List ScheduleEntry), ∀ (st : List ScheduleEntry) (ts : List SwarmTask),
      d.Nodup → (∀ e ∈ d, e ∈ st) → (st.map ScheduleEntry.task_id).Nodup →
      d.foldl (dueStep now) (ts, st) =
        (ts ++ (d.filter (fun x => x.task.starter)).map (fun x => x.task),
         st.filter (fun x => !decide (x ∈ d.filter (fun y => y.task.starter)))
           ++ (d.filter (fun x => x.task.starter && x.interval != -1)).map (updEntry now)) := by
  intro d
  induction d with
  | nil =>
    intro st ts _ _ _
    simp
  | cons e d' ih =>
    intro st ts hnd hmem hids
    have hnd' : d'.Nodup := (List.nodup_cons.mp hnd).2
    have henotmem : e ∉ d' := (List.nodup_cons.mp hnd).1
    have hest : e ∈ st := hmem e (List.mem_cons_self e d')
    have hmem' : ∀ f ∈ d', f ∈ st := fun f hf => hmem f (List.mem_cons_of_mem e hf)
    have hinj := List.inj_on_of_nodup_map hids
    rw [List.foldl_cons]
    by_cases hst : e.task.starter = true
    · -- starter entry: removed, task appended, maybe rescheduled
      have hfs : (e :: d').filter (fun x => x.task.starter)
          = e :: d'.filter (fun x => x.task.starter) := by
        simp [List.filter_cons, hst]
      have hptw : ∀ x ∈ st,
          (!decide (x ∈ (e :: d').filter (fun y => y.task.starter)))
            = ((!decide (x ∈ d'.filter (fun y => y.task.starter))) && (x != e)) := by
        intro x _
        rw [hfs]
        by_cases h1 : x = e <;>
          by_cases h2 : x ∈ d'.filter (fun y => y.task.starter) <;>
            simp [h1, h2]
      by_cases hiv : e.interval = -1
      · -- fire-once sentinel: removed and not re-added
        have hstep : dueStep now (ts, st) e = (ts ++ [e.task], zrem e st) := by
          simp [dueStep, hst, hiv]
        rw [hstep]
        have hmem'' : ∀ f ∈ d', f ∈ zrem e st := by
          intro f hf
          exact mem_zrem (hmem' f hf) (fun h => henotmem (h ▸ hf))
        have hids'' : ((zrem e st).map ScheduleEntry.task_id).Nodup :=
          List.Nodup.sublist ((zrem_sublist e st).map ScheduleEntry.task_id) hids
        rw [ih (zrem e st) (ts ++ [e.task]) hnd' hmem'' hids'']
        have hs2 : (e :: d').filter (fun x => x.task.starter && x.interval != -1)
            = d'.filter (fun x => x.task.starter && x.interval != -1) := by
          simp [List.filter_cons, hiv]
        have hflt : (zrem e st).filter
              (fun x => !decide (x ∈ d'.filter (fun y => y.task.starter)))
            = st.filter
              (fun x => !decide (x ∈ (e :: d').filter (fun y => y.task.starter))) := by
          rw [zrem, List.filter_filter, List.filter_congr hptw]
        rw [hs2, hflt, hfs]
        simp
      · -- rescheduled: removed and re-added with the recomputed score
        have hstep : dueStep now (ts, st) e
            = (ts ++ [e.task], zrem e st ++ [updEntry now e]) := by
          simp [dueStep, hst, zadd, hiv]
        rw [hstep]
        have hmem'' : ∀ f ∈ d', f ∈ zrem e st ++ [updEntry now e] := by
          intro f hf
          exact List.mem_append_left _ (mem_zrem (hmem' f hf) (fun h => henotmem (h ▸ hf)))
        have hids'' : (((zrem e st) ++ [updEntry now e]).map ScheduleEntry.task_id).Nodup := by
          rw [List.map_append]
          refine List.nodup_append.mpr
            ⟨List.Nodup.sublist ((zrem_sublist e st).map _) hids, by simp, ?_⟩
          intro y hy
          simp only [List.mem_map] at hy
          obtain ⟨x, hx, rfl⟩ := hy
          have hxe : x ≠ e := ne_of_mem_zrem hx
          have hxst : x ∈ st := mem_of_mem_zrem hx
          intro hycon
          simp only [List.map_cons, List.map_nil, List.mem_singleton] at hycon
          exact hxe (hinj hxst hest (by simpa [updEntry] using hycon))
        rw [ih _ (ts ++ [e.task]) hnd' hmem'' hids'']
        have hupd : (updEntry now e) ∉ d' := by
          intro hcon
          have hinst : updEntry now e ∈ st := hmem' _ hcon
          have : updEntry now e = e := hinj hinst hest (by simp [updEntry])
          exact henotmem (this ▸ hcon)
        have hs2 : (e :: d').filter (fun x => x.task.starter && x.interval != -1)
            = e :: d'.filter (fun x => x.task.starter && x.interval != -1) := by
          simp [List.filter_cons, hst, hiv]
        have hflt : ((zrem e st) ++ [updEntry now e]).filter
              (fun x => !decide (x ∈ d'.filter (fun y => y.task.starter)))
            = st.filter
              (fun x => !decide (x ∈ (e :: d').filter (fun y => y.task.starter)))
              ++ [updEntry now e] := by
          rw [List.filter_append]
          rw [zrem, List.filter_filter, List.filter_congr hptw]
          simp [hupd]
        rw [hs2, hflt, hfs]
        simp
    · -- non-starter entry: the loop body is a no-op
      have hstf : e.task.starter = false := by
        simpa using hst
      have hstep : dueStep now (ts, st) e = (ts, st) := by
        simp [dueStep, hstf]
      rw [hstep, ih st ts hnd' hmem' hids]
      have h1 : (e :: d').filter (fun x => x.task.starter)
          = d'.filter (fun x => x.task.starter) := by
        simp [List.filter_cons, hstf]
      have h2 : (e :: d').filter (fun x => x.task.starter && x.interval != -1)
          = d'.filter (fun x => x.task.starter && x.interval != -1) := by
        simp [List.filter_cons, hstf]
      rw [h1, h2]

/-- C2: a `get_due_tasks` call at time `now` returns exactly the tasks of
the entries with `next_fire_at <= now` whose template is a starter; the
scheduler tick pushes each of them onto the main queue; each such entry
gets `last_run = now` and a recomputed score unless its interval is the
fire-once sentinel, in which case it is dropped; all other entries are kept
unchanged. -/
theorem c2_due_tasks (now : Int) (s : List ScheduleEntry) (q : List JsonObj)
    (hids : (s.map ScheduleEntry.task_id).Nodup)
    (hpos : ∀ e ∈ s, 0 ≤ e.score) :
    (get_due_tasks now s).1
      = (s.filter (fun e => decide (e.score ≤ now) && e.task.starter)).map (fun e => e.task)
    ∧ (get_due_tasks now s).2
      = s.filter
          (fun x => !decide (x ∈ s.filter (fun e => decide (e.score ≤ now) && e.task.starter)))
        ++ (s.filter
              (fun e => decide (e.score ≤ now) && (e.task.starter && e.interval != -1))).map
            (fun e => { e with last_run := some now,
                               score := calcNextRun now e.schedule_type e.interval })
    ∧ (run_scheduler_tick now s q).2
      = (((get_due_tasks now s).1).map encodeTask).reverse ++ q := by
  have hsnd : s.Nodup := List.Nodup.of_map _ hids
  have hdnd : (s.filter (isDue now)).Nodup := hsnd.filter _
  have hdmem : ∀ e ∈ s.filter (isDue now), e ∈ s := fun e he => List.mem_of_mem_filter he
  have hchar := dueFold_char now (s.filter (isDue now)) s [] hdnd hdmem hids
  have h1 : (s.filter (isDue now)).filter (fun x => x.task.starter)
      = s.filter (fun e => decide (e.score ≤ now) && e.task.starter) := by
    rw [List.filter_filter]
    refine List.filter_congr ?_
    intro e he
    have h0 : (0 : Int) ≤ e.score := hpos e he
    simp [isDue, h0, Bool.and_comm]
  have h2 : (s.filter (isDue now)).filter (fun x => x.task.starter && x.interval != -1)
      = s.filter (fun e => decide (e.score ≤ now) && (e.task.starter && e.interval != -1)) := by
    rw [List.filter_filter]
    refine List.filter_congr ?_
    intro e he
    have h0 : (0 : Int) ≤ e.score := hpos e he
    simp [isDue, h0, Bool.and_comm]
  refine ⟨?_, ?_, ?_⟩
  · rw [get_due_tasks, hchar, h1]
    simp
  · rw [get_due_tasks, hchar, h1, h2]
    simp [updEntry]
  · exact enqueueAll_eq (get_due_tasks now s).1 q

/-- C2 witness: a due recurring starter entry at time 100 fires once. -/
theorem c2_due_tasks_witness :
    (([sampleEntry].map ScheduleEntry.task_id).Nodup ∧ ∀ e ∈ [sampleEntry], 0 ≤ e.score)
    ∧ ((get_due_tasks 100 [sampleEntry]).1
        = ([sampleEntry].filter
            (fun e => decide (e.score ≤ 100) && e.task.starter)).map (fun e => e.task)
      ∧ (get_due_tasks 100 [sampleEntry]).2
        = [sampleEntry].filter
            (fun x => !decide (x ∈ [sampleEntry].filter
              (fun e => decide (e.score ≤ 100) && e.task.starter)))
          ++ ([sampleEntry].filter
                (fun e => decide (e.score ≤ 100) && (e.task.starter && e.interval != -1))).map
              (fun e => { e with last_run := some 100,
                                 score := calcNextRun 100 e.schedule_type e.interval })
      ∧ (run_scheduler_tick 100 [sampleEntry] []).2
        = (((get_due_tasks 100 [sampleEntry]).1).map encodeTask).reverse ++ []) :=
  ⟨⟨by decide, by decide⟩, c2_due_tasks 100 [sampleEntry] [] (by decide) (by decide)⟩

/-- Entry ids never enter the schedule store during a `get_due_tasks` call:
every id in the resulting store was in the store or in the processed
snapshot before the call. -/
theorem dueFold_ids_subset (now : Int) :
    ∀ (d : List ScheduleEntry), ∀ (st : List ScheduleEntry) (ts : List SwarmTask) (x : String),
      x ∈ ((d.foldl (dueStep now) (ts, st)).2.map ScheduleEntry.task_id) →
      x ∈ st.map ScheduleEntry.task_id ∨ x ∈ d.map ScheduleEntry.task_id := by
  intro d
  induction d with
  | nil =>
    intro st ts x h
    exact Or.inl (by simpa using h)
  | cons e d' ih =>
    intro st ts x h
    rw [List.foldl_cons] at h
    by_cases hst : e.task.starter = true
    · by_cases hiv : e.interval = -1
      · have hstep : dueStep now (ts, st) e = (ts ++ [e.task], zrem e st) := by
          simp [dueStep, hst, hiv]
        rw [hstep] at h
        rcases ih (zrem e st) _ x h with h1 | h1
        · left
          simp only [List.mem_map] at h1 ⊢
          obtain ⟨y, hy, rfl⟩ := h1
          exact ⟨y, mem_of_mem_zrem hy, rfl⟩
        · right
          simp only [List.map_cons, List.mem_cons]
          exact Or.inr h1
      · have hstep : dueStep now (ts, st) e
            = (ts ++ [e.task], zrem e st ++ [updEntry now e]) := by
          simp [dueStep, hst, zadd, hiv]
        rw [hstep] at h
        rcases ih _ _ x h with h1 | h1
        · rw [List.map_append] at h1
          rcases List.mem_append.mp h1 with h2 | h2
          · left
            simp only [List.mem_map] at h2 ⊢
            obtain ⟨y, hy, rfl⟩ := h2
            exact ⟨y, mem_of_mem_zrem hy, rfl⟩
          · right
            simp only [List.map_cons, List.mem_cons]
            left
            simpa [updEntry] using h2
        · right
          simp only [List.map_cons, List.mem_cons]
          exact Or.inr h1
    · have hstf : e.task.starter = false := by simpa using hst
      have hstep : dueStep now (ts, st) e = (ts, st) := by simp [dueStep, hstf]
      rw [hstep] at h
      rcases ih st ts x h with h1 | h1
      · exact Or.inl h1
      · right
        simp only [List.map_cons, List.mem_cons]
        exact Or.inr h1

/-- A `get_due_tasks` call never introduces a new entry id. -/
theorem gdt_ids_subset (now : Int) (s : List ScheduleEntry) (x : String)
    (hx : x ∈ ((get_due_tasks now s).2.map ScheduleEntry.task_id)) :
    x ∈ s.map ScheduleEntry.task_id := by
  rcases dueFold_ids_subset now (s.filter (isDue now)) s [] x hx with h | h
  · exact h
  · simp only [List.mem_map] at h ⊢
    obtain ⟨y, hy, rfl⟩ := h
    exact ⟨y, List.mem_of_mem_filter hy, rfl⟩

/-- An id absent from the schedule store stays absent across any sequence
of scheduler ticks. -/
theorem ticksFold_ids (times : List Int) (s : List ScheduleEntry) (x : String)
    (hx : x ∉ s.map ScheduleEntry.task_id) :
    x ∉ (ticksFold times s).map ScheduleEntry.task_id := by
  induction times generalizing s with
  | nil => exact hx
  | cons t rest ih =>
    have hstep : ticksFold (t :: rest) s = ticksFold rest ((get_due_tasks t s).2) := rfl
    rw [hstep]
    refine ih _ ?_
    intro hcon
    exact hx (gdt_ids_subset t s x hcon)

/-- C4: a due fire-once starter entry (interval `-1`) fires in the current
`get_due_tasks` call, after which its id is gone from the schedule store
and never reappears across any sequence of later scheduler ticks. -/
theorem c4_fire_once (now : Int) (s : List ScheduleEntry) (e : ScheduleEntry)
    (times : List Int)
    (hids : (s.map ScheduleEntry.task_id).Nodup) (he : e ∈ s)
    (hiv : e.interval = -1) (hst : e.task.starter = true)
    (h0 : 0 ≤ e.score) (hdue : e.score ≤ now) :
    e.task ∈ (get_due_tasks now s).1
    ∧ e.task_id ∉ ((ticksFold times (get_due_tasks now s).2).map ScheduleEntry.task_id) := by
  have hsnd : s.Nodup := List.Nodup.of_map _ hids
  have hdnd : (s.filter (isDue now)).Nodup := hsnd.filter _
  have hdmem : ∀ f ∈ s.filter (isDue now), f ∈ s := fun f hf => List.mem_of_mem_filter hf
  have hinj := List.inj_on_of_nodup_map hids
  have hchar := dueFold_char now (s.filter (isDue now)) s [] hdnd hdmem hids
  have hedue : e ∈ s.filter (isDue now) := by
    simp [List.mem_filter, he, isDue, h0, hdue]
  have hestart : e ∈ (s.filter (isDue now)).filter (fun x => x.task.starter) := by
    simp [List.mem_filter, he, hst, isDue, h0, hdue]
  constructor
  · rw [get_due_tasks, hchar]
    simp only [List.nil_append, List.mem_map]
    exact ⟨e, hestart, rfl⟩
  · refine ticksFold_ids times _ e.task_id ?_
    rw [get_due_tasks, hchar]
    intro hcon
    rw [List.map_append] at hcon
    rcases List.mem_append.mp hcon with h1 | h1
    · simp only [List.mem_map] at h1
      obtain ⟨y, hy, hyid⟩ := h1
      have hys : y ∈ s := List.mem_of_mem_filter hy
      have hye : y = e := hinj hys he hyid
      subst hye
      have h2 := (List.mem_filter.mp hy).2
      simp [List.mem_filter, he, hst, isDue, h0, hdue] at h2
    · simp only [List.mem_map] at h1
      obtain ⟨z, hz, hzid⟩ := h1
      obtain ⟨f, hf, rfl⟩ := hz
      have hfs : f ∈ s := List.mem_of_mem_filter (List.mem_of_mem_filter hf)
      have hfid : f.task_id = e.task_id := by simpa [updEntry] using hzid
      have hfe : f = e := hinj hfs he hfid
      subst hfe
      have hcon2 := (List.mem_filter.mp hf).2
      simp [hiv] at hcon2

/-- C4 witness: a due fire-once entry fires at time 100 and is absent after
a later tick at time 200. -/
theorem c4_fire_once_witness :
    (([sampleOnceEntry].map ScheduleEntry.task_id).Nodup
      ∧ sampleOnceEntry ∈ [sampleOnceEntry]
      ∧ sampleOnceEntry.interval = -1
      ∧ sampleOnceEntry.task.starter = true
      ∧ 0 ≤ sampleOnceEntry.score ∧ sampleOnceEntry.score ≤ 100)
    ∧ (sampleOnceEntry.task ∈ (get_due_tasks 100 [sampleOnceEntry]).1
      ∧ sampleOnceEntry.task_id ∉
          ((ticksFold [200] (get_due_tasks 100 [sampleOnceEntry]).2).map
            ScheduleEntry.task_id)) :=
  ⟨⟨by decide, by decide, by decide, by decide, by decide, by decide⟩,
   c4_fire_once 100 [sampleOnceEntry] sampleOnceEntry [200]
     (by decide) (by decide) (by decide) (by decide) (by decide) (by decide)⟩

/-- The `get_due_tasks` loop body never touches an entry whose task is not
a starter: such an entry survives the whole loop unchanged. -/
theorem dueFold_nonstarter_mem (now : Int) :
    ∀ (d : List ScheduleEntry), ∀ (st : List ScheduleEntry) (ts : List SwarmTask)
      (x : ScheduleEntry), x ∈ st → x.task.starter = false →
      x ∈ (d.foldl (dueStep now) (ts, st)).2 := by
  intro d
  induction d with
  | nil =>
    intro st ts x hx _
    exact hx
  | cons e d' ih =>
    intro st ts x hx hxs
    rw [List.foldl_cons]
    by_cases hst : e.task.starter = true
    · have hxe : x ≠ e := by
        intro hcon
        rw [hcon, hst] at hxs
        cases hxs
      by_cases hiv : e.interval = -1
      · have hstep : dueStep now (ts, st) e = (ts ++ [e.task], zrem e st) := by
          simp [dueStep, hst, hiv]
        rw [hstep]
        exact ih _ _ x (mem_zrem hx hxe) hxs
      · have hstep : dueStep now (ts, st) e
            = (ts ++ [e.task], zrem e st ++ [updEntry now e]) := by
          simp [dueStep, hst, zadd, hiv]
        rw [hstep]
        exact ih _ _ x (List.mem_append_left _ (mem_zrem hx hxe)) hxs
    · have hstf : e.task.starter = false := by simpa using hst
      have hstep : dueStep now (ts, st) e = (ts, st) := by simp [dueStep, hstf]
      rw [hstep]
      exact ih _ _ x hx hxs

/-- Every task returned by the `get_due_tasks` loop is a starter (beyond
tasks already in the accumulator). -/
theorem dueFold_returned_starter (now : Int) :
    ∀ (d : List ScheduleEntry), ∀ (st : List ScheduleEntry) (ts : List SwarmTask),
      (∀ t ∈ ts, t.starter = true) →
      ∀ t ∈ (d.foldl (dueStep now) (ts, st)).1, t.starter = true := by
  intro d
  induction d with
  | nil =>
    intro st ts hts t ht
    exact hts t ht
  | cons e d' ih =>
    intro st ts hts t ht
    rw [List.foldl_cons] at ht
    by_cases hst : e.task.starter = true
    · have hts' : ∀ u ∈ ts ++ [e.task], u.starter = true := by
        intro u hu
        rcases List.mem_append.mp hu with h | h
        · exact hts u h
        · rw [List.mem_singleton.mp h]
          exact hst
      by_cases hiv : e.interval = -1
      · have hstep : dueStep now (ts, st) e = (ts ++ [e.task], zrem e st) := by
          simp [dueStep, hst, hiv]
        rw [hstep] at ht
        exact ih _ _ hts' t ht
      · have hstep : dueStep now (ts, st) e
            = (ts ++ [e.task], zrem e st ++ [updEntry now e]) := by
          simp [dueStep, hst, zadd, hiv]
        rw [hstep] at ht
        exact ih _ _ hts' t ht
    · have hstf : e.task.starter = false := by simpa using hst
      have hstep : dueStep now (ts, st) e = (ts, st) := by simp [dueStep, hstf]
      rw [hstep] at ht
      exact ih _ _ hts t ht

/-- A non-starter entry survives any sequence of scheduler ticks. -/
theorem ticksFold_nonstarter (times : List Int) (s : List ScheduleEntry)
    (e : ScheduleEntry) (he : e ∈ s) (hst : e.task.starter = false) :
    e ∈ ticksFold times s := by
  induction times generalizing s with
  | nil => exact he
  | cons t rest ih =>
    have hstep : ticksFold (t :: rest) s = ticksFold rest ((get_due_tasks t s).2) := rfl
    rw [hstep]
    exact ih _ (dueFold_nonstarter_mem t _ s [] e he hst)

/-- C10: a schedule entry whose embedded task has `starter == false` is
never fired by `get_due_tasks`: its task is not returned, the entry itself
stays in the schedule store unchanged (same fields, same score, same
last-run), and it is still there after any sequence of later ticks. -/
theorem c10_nonstarter_frame (now : Int) (s : List ScheduleEntry) (e : ScheduleEntry)
    (times : List Int) (he : e ∈ s) (hst : e.task.starter = false) :
    e ∈ (get_due_tasks now s).2
    ∧ e.task ∉ (get_due_tasks now s).1
    ∧ e ∈ ticksFold times s := by
  refine ⟨dueFold_nonstarter_mem now _ s [] e he hst, ?_,
    ticksFold_nonstarter times s e he hst⟩
  intro hcon
  have : e.task.starter = true :=
    dueFold_returned_starter now (s.filter (isDue now)) s [] (by simp) e.task hcon
  rw [hst] at this
  cases this

/-- C10 witness: a due entry around a non-starter task at time 100 is kept
unchanged through ticks at times 100 and 200 and never fires. -/
theorem c10_nonstarter_frame_witness :
    (samplePlainEntry ∈ [samplePlainEntry] ∧ samplePlainEntry.task.starter = false)
    ∧ (samplePlainEntry ∈ (get_due_tasks 100 [samplePlainEntry]).2
      ∧ samplePlainEntry.task ∉ (get_due_tasks 100 [samplePlainEntry]).1
      ∧ samplePlainEntry ∈ ticksFold [100, 200] [samplePlainEntry]) :=
  ⟨⟨by decide, by decide⟩,
   c10_nonstarter_frame 100 [samplePlainEntry] samplePlainEntry [100, 200]
     (by decide) (by decide)⟩

/-- C8: for the documented units, `schedule_task` appends an entry whose
sort key is `now + interval * unit-in-seconds` with the sentinel `-1`
treated as `0`, and returns the generated id. -/
theorem c8_schedule (t : SwarmTask) (u : String) (iv now : Int) (tid : String)
    (s : List ScheduleEntry)
    (hu : u = "minutes" ∨ u = "hours" ∨ u = "days") :
    schedule_task t u iv now tid s
      = (tid, s ++ [⟨tid, t, u, iv, none,
          now + (if iv = -1 then 0 else iv) *
            (if u = "minutes" then 60 else if u = "hours" then 3600 else 86400)⟩]) := by
  rcases hu with rfl | rfl | rfl <;> simp [schedule_task, zadd, calcNextRun]

/-- C8 witness: scheduling with unit minutes and the fire-once sentinel at
time 1000 keys the entry at 1000. -/
theorem c8_schedule_witness :
    ("minutes" = "minutes" ∨ "minutes" = "hours" ∨ "minutes" = "days")
    ∧ schedule_task sampleTask "minutes" (-1) 1000 "id9" []
      = ("id9", [] ++ [⟨"id9", sampleTask, "minutes", -1, none,
          1000 + (if (-1 : Int) = -1 then 0 else (-1 : Int)) *
            (if "minutes" = "minutes" then 60
             else if "minutes" = "hours" then 3600 else 86400)⟩]) :=
  ⟨Or.inl rfl, c8_schedule sampleTask "minutes" (-1) 1000 "id9" [] (Or.inl rfl)⟩

/-- The scan of `modify_starter_task` acts on the first entry whose id
matches, exactly as `find?` locates it. -/
theorem modify_loop_eq_find (tid : String) (ost : Option String) (oi : Option Int)
    (now : Int) :
    ∀ (d s : List ScheduleEntry),
      modify_loop tid ost oi now d s =
        match d.find? (fun x => x.task_id == tid) with
        | none => (false, s)
        | some e =>
          (true,
            zadd { modifyFields ost oi e with
                     score := calcNextRun now (modifyFields ost oi e).schedule_type
                       (modifyFields ost oi e).interval }
              (zrem e s)) := by
  intro d
  induction d with
  | nil => intro s; rfl
  | cons e rest ih =>
    intro s
    by_cases h : e.task_id = tid
    · simp [modify_loop, h, List.find?]
    · have hbf : (e.task_id == tid) = false := by simp [h]
      simp [modify_loop, h, hbf, List.find?, ih s]

/-- C5 counterexample: on an entry with interval 5, a `modify` call
supplying the valid interval `0` returns true but leaves the interval at 5
(Python `if interval:` treats `0` as not supplied), contradicting the
claim that every supplied value, including `interval = 0`, replaces the
stored one. -/
theorem c5_counterexample :
    (modify_starter_task "cex" none (some 0) 200 [cexEntry]).1 = true
    ∧ ((modify_starter_task "cex" none (some 0) 200 [cexEntry]).2.map
        (fun e => e.interval)) = [5]
    ∧ ¬ (5 : Int) = 0 := by decide

/-- C5 (amended): `modify_starter_task` replaces `schedule_unit` when the
supplied value is a non-empty string and `interval` when the supplied value
is non-zero (a supplied `0` is ignored because of Python truthiness, while
`-1` is applied); it always recomputes the sort key from the resulting
fields and returns true for an existing id; for an unknown id it returns
false and leaves the store unchanged. -/
theorem c5_modify_truthy (tid : String) (ost : Option String) (oi : Option Int)
    (now : Int) (s : List ScheduleEntry)
    (hids : (s.map ScheduleEntry.task_id).Nodup) :
    (s.find? (fun x => x.task_id == tid) = none →
      modify_starter_task tid ost oi now s = (false, s))
    ∧ (∀ e, s.find? (fun x => x.task_id == tid) = some e →
        modify_starter_task tid ost oi now s
          = (true,
             s.erase e ++
               [{ e with
                   schedule_type :=
                     (match ost with
                      | some u => if u = "" then e.schedule_type else u
                      | none => e.schedule_type),
                   interval :=
                     (match oi with
                      | some i => if i = 0 then e.interval else i
                      | none => e.interval),
                   score := calcNextRun now
                     (match ost with
                      | some u => if u = "" then e.schedule_type else u
                      | none => e.schedule_type)
                     (match oi with
                      | some i => if i = 0 then e.interval else i
                      | none => e.interval) }])) := by
  have hsnd : s.Nodup := List.Nodup.of_map _ hids
  have hloop := modify_loop_eq_find tid ost oi now s s
  constructor
  · intro hnone
    rw [modify_starter_task, hloop, hnone]
  · intro e hfind
    rw [modify_starter_task, hloop, hfind]
    have herase : zrem e s = s.erase e := by
      rw [hsnd.erase_eq_filter e, zrem]
    simp only [zadd]
    rw [herase]
    rcases ost with _ | u <;> rcases oi with _ | i
    · rfl
    · by_cases hi : i = 0 <;> simp [modifyFields, hi]
    · by_cases hu : u = "" <;> simp [modifyFields, hu]
    · by_cases hu : u = "" <;> by_cases hi : i = 0 <;> simp [modifyFields, hu, hi]

/-- C5 witness: modifying an existing minutes-5 entry to hours-1 replaces
both fields and re-keys the entry at now + 3600. -/
theorem c5_modify_truthy_witness :
    (([cexEntry].map ScheduleEntry.task_id).Nodup
      ∧ [cexEntry].find? (fun x => x.task_id == "cex") = some cexEntry)
    ∧ modify_starter_task "cex" (some "hours") (some 1) 200 [cexEntry]
      = (true, [cexEntry].erase cexEntry ++
          [⟨"cex", sampleTask, "hours", 1, none, 3800⟩]) := by
  refine ⟨⟨by decide, by decide⟩, ?_⟩
  have h := (c5_modify_truthy "cex" (some "hours") (some 1) 200 [cexEntry]
    (by decide)).2 cexEntry (by decide)
  rw [h]
  decide

/-- C6: for a reserved, valid task: when the fill or the callback (or the
report fetch) fails, the task is removed from the in-flight record and is
neither pushed to `finished` nor re-enqueued; when the callback succeeds,
the (possibly filled) task is pushed to `finished` exactly once and then
removed from the in-flight record; and the drop happens exactly on report,
fill or callback failure. -/
theorem c6_worker (env : WorkerEnv) (st : WorkerState) (td : JsonObj)
    (q2 : List JsonObj) (task : SwarmTask)
    (hq : rpop st.queue = some (td, q2)) (hdec : decodeTask td = some task) :
    ((process_task env task = none →
        process_queue_iter env st = ⟨q2, st.inflight, st.finished⟩)
    ∧ (∀ t2, process_task env task = some t2 →
        process_queue_iter env st = ⟨q2, st.inflight, lpush (encodeTask t2) st.finished⟩))
    ∧ (process_task env task = none ↔
        (task.report_url ≠ "" ∧ isErr env.reportFetch = true)
        ∨ (needsFill task = true ∧ isErr env.fillResult = true)
        ∨ env.callbackOk = false) := by
  refine ⟨⟨?_, ?_⟩, ?_⟩
  · intro hnone
    simp [process_queue_iter, hq, hdec, hnone, lpush, List.erase_cons_head]
  · intro t2 ht2
    simp [process_queue_iter, hq, hdec, ht2, lpush, List.erase_cons_head]
  · by_cases hr : task.report_url = ""
    · by_cases hf : needsFill task = true
      · rcases hfr : env.fillResult with u | vs
        · simp [process_task, hr, hf, hfr, isErr]
        · cases hcb : env.callbackOk <;> simp [process_task, hr, hf, hfr, hcb, isErr]
      · cases hcb : env.callbackOk <;> simp [process_task, hr, hf, hcb, isErr]
    · rcases hrf : env.reportFetch with u | rd
      · simp [process_task, hr, hrf, isErr]
      · by_cases hf : needsFill task = true
        · rcases hfr : env.fillResult with u | vs
          · simp [process_task, hr, hrf, hf, hfr, isErr]
          · cases hcb : env.callbackOk <;> simp [process_task, hr, hrf, hf, hfr, hcb, isErr]
        · cases hcb : env.callbackOk <;> simp [process_task, hr, hrf, hf, hcb, isErr]

/-- C6 witness: with a failing callback, a reserved one-element queue ends
with empty in-flight and empty finished records. -/
theorem c6_worker_witness :
    (rpop [encodeTask samplePlainTask] = some (encodeTask samplePlainTask, [])
      ∧ decodeTask (encodeTask samplePlainTask) = some samplePlainTask
      ∧ process_task envCallbackFail samplePlainTask = none)
    ∧ process_queue_iter envCallbackFail ⟨[encodeTask samplePlainTask], [], []⟩
        = ⟨[], [], []⟩ :=
  ⟨⟨by decide, by decide, by decide⟩,
   (c6_worker envCallbackFail ⟨[encodeTask samplePlainTask], [], []⟩
     (encodeTask samplePlainTask) [] samplePlainTask (by decide) (by decide)).1.1
     (by decide)⟩

theorem lookup_eq_some_of_keys_nodup {β : Type} (l : List (String × β)) (t : String)
    (tcs : β) (hk : (l.map Prod.fst).Nodup) (hm : (t, tcs) ∈ l) :
    l.lookup t = some tcs := by
  induction l with
  | nil => cases hm
  | cons kv rest ih =>
    rcases List.mem_cons.mp hm with h | h
    · rw [List.lookup_cons]
      subst h
      simp
    · have hk' : (rest.map Prod.fst).Nodup := (List.nodup_cons.mp hk).2
      have hne : t ≠ kv.1 := by
        intro hcon
        have : kv.1 ∈ rest.map Prod.fst := by
          simp only [List.mem_map]
          exact ⟨(t, tcs), h, by rw [hcon]⟩
        exact (List.nodup_cons.mp hk).1 this
      rw [List.lookup_cons]
      have hbf : (t == kv.1) = false := by simp [hne]
      rw [hbf]
      exact ih hk' h

theorem mem_of_lookup_eq_some {β : Type} (l : List (String × β)) (t : String)
    (tcs : β) (h : l.lookup t = some tcs) : (t, tcs) ∈ l := by
  induction l with
  | nil => cases h
  | cons kv rest ih =>
    rw [List.lookup_cons] at h
    by_cases he : t = kv.1
    · rw [show (t == kv.1) = true by simp [he]] at h
      have h2 : kv.2 = tcs := Option.some.inj h
      refine List.mem_cons.mpr (Or.inl ?_)
      rw [← h2, he]
    · rw [show (t == kv.1) = false by simp [he]] at h
      exact List.mem_cons_of_mem _ (ih h)

/-- C3: the chainer's condition evaluation is true exactly when, for every
table named in the conditions, every field/expected-value pair of that
table's conditions equals the corresponding field of every result row for
that table (absent fields read as null); tables without conditions are
never checked, and an empty conditions dict is always true. -/
theorem c3_check_conditions (conds : List (String × List (String × FieldValue)))
    (results : List TableResult)
    (hk : (conds.map Prod.fst).Nodup) :
    (check_conditions conds results = true ↔
      ∀ t tcs, (t, tcs) ∈ conds → ∀ f v, (f, v) ∈ tcs →
        ∀ r ∈ results, r.table = t →
          ((r.data.lookup f).getD FieldValue.vNull) = v) := by
  by_cases hc : conds.isEmpty
  · have hnil : conds = [] := List.isEmpty_iff.mp hc
    subst hnil
    simp [check_conditions]
  · rw [check_conditions, if_neg hc]
    rw [List.all_eq_true]
    constructor
    · intro h t tcs htm f v hfv r hr hrt
      have hall := h r hr
      rw [List.all_eq_true] at hall
      have hlk : conds.lookup r.table = some tcs := by
        rw [hrt]
        exact lookup_eq_some_of_keys_nodup conds t tcs hk htm
      rw [hlk] at hall
      have := hall (f, v) hfv
      simpa using this
    · intro h r hr
      rw [List.all_eq_true]
      intro fc hfc
      cases hlk : conds.lookup r.table with
      | none =>
        rw [hlk] at hfc
        cases hfc
      | some tcs =>
        rw [hlk] at hfc
        have htm : (r.table, tcs) ∈ conds := mem_of_lookup_eq_some conds r.table tcs hlk
        have := h r.table tcs htm fc.1 fc.2 (by simpa using hfc) r hr rfl
        simpa using this

/-- C3 witness: the spec example — a pending order matches the pending
condition. -/
theorem c3_check_conditions_witness :
    (([("orders", [("status", FieldValue.vStr "pending")])].map Prod.fst).Nodup)
    ∧ (check_conditions [("orders", [("status", FieldValue.vStr "pending")])]
        [⟨"orders", [("status", FieldValue.vStr "pending")]⟩] = true ↔
      ∀ t tcs, (t, tcs) ∈ [("orders", [("status", FieldValue.vStr "pending")])] →
        ∀ f v, (f, v) ∈ tcs →
          ∀ r ∈ [(⟨"orders", [("status", FieldValue.vStr "pending")]⟩ : TableResult)],
            r.table = t → ((r.data.lookup f).getD FieldValue.vNull) = v) :=
  ⟨by decide,
   c3_check_conditions [("orders", [("status", FieldValue.vStr "pending")])]
     [⟨"orders", [("status", FieldValue.vStr "pending")]⟩] (by decide)⟩

theorem rpop_none_eq_nil {α : Type} {l : List α} (h : rpop l = none) : l = [] := by
  cases l with
  | nil => rfl
  | cons a as =>
    rw [rpop, List.getLast?_eq_getLast (a :: as) (by simp)] at h
    cases h

theorem rpop_some_facts {α : Type} {l l2 : List α} {x : α}
    (h : rpop l = some (x, l2)) :
    l.reverse = x :: l2.reverse ∧ l.length = l2.length + 1 := by
  have hne : l ≠ [] := by
    intro hcon
    subst hcon
    cases h
  rw [rpop, List.getLast?_eq_getLast l hne] at h
  have hx : l.getLast hne = x := congrArg Prod.fst (Option.some.inj h)
  have hl2 : l.dropLast = l2 := congrArg Prod.snd (Option.some.inj h)
  constructor
  · conv_lhs => rw [← List.dropLast_concat_getLast hne]
    rw [List.reverse_append, hx, hl2]
    rfl
  · rw [← hl2, List.length_dropLast]
    have hpos : 0 < l.length := List.length_pos.mpr hne
    omega

/-- Trace invariant of the reservation interleaving: the tasks returned so
far, followed by what is still queued, are exactly the original queue
(read newest to oldest). -/
theorem runReserves_inv (ws : List String) :
    ∀ s : PoolState,
      ((runReserves ws s).1.filterMap id) ++ (runReserves ws s).2.queue.reverse
        = s.queue.reverse := by
  induction ws with
  | nil =>
    intro s
    simp [runReserves]
  | cons w ws ih =>
    intro s
    cases hq : rpop s.queue with
    | none =>
      have hres : reserve w s = (none, s) := by simp [reserve, hq]
      simp [runReserves, hres, ih]
    | some p =>
      obtain ⟨td, q2⟩ := p
      have hres : reserve w s
          = (some td, ⟨q2, setProc w (lpush td (getProc w s.inflight)) s.inflight⟩) := by
        simp [reserve, hq]
      have hrev := (rpop_some_facts hq).1
      simp only [runReserves, hres, List.filterMap_cons]
      rw [hrev]
      simp [ih]

/-- Enough reservations leave the queue empty. -/
theorem runReserves_drain (ws : List String) :
    ∀ s : PoolState, s.queue.length ≤ ws.length →
      (runReserves ws s).2.queue = [] := by
  induction ws with
  | nil =>
    intro s h
    exact List.eq_nil_of_length_eq_zero (Nat.le_zero.mp h)
  | cons w ws ih =>
    intro s h
    cases hq : rpop s.queue with
    | none =>
      have hnil : s.queue = [] := rpop_none_eq_nil hq
      have hres : reserve w s = (none, s) := by simp [reserve, hq]
      simp only [runReserves, hres]
      exact ih s (by simp [hnil])
    | some p =>
      obtain ⟨td, q2⟩ := p
      have hres : reserve w s
          = (some td, ⟨q2, setProc w (lpush td (getProc w s.inflight)) s.inflight⟩) := by
        simp [reserve, hq]
      have hlen := (rpop_some_facts hq).2
      simp only [runReserves, hres]
      refine ih _ ?_
      simp only [List.length_cons] at h
      simp
      omega

/-- C1: for any tasks `ts` enqueued into the main queue and any
serialization `ws` of at least `ts.length` concurrent reserve calls, the
non-empty reservation results are exactly the enqueued tasks — each
enqueued task instance is returned exactly once (and, the queue elements
being distinct, no task is returned twice) — and the queue is empty
afterwards. -/
theorem c1_reserve_exactly_once (ts : List SwarmTask) (ws : List String)
    (h : ts.length ≤ ws.length) :
    ((runReserves ws ⟨enqueueAll ts [], []⟩).1.filterMap id = ts.map encodeTask)
    ∧ (runReserves ws ⟨enqueueAll ts [], []⟩).2.queue = []
    ∧ (ts.Nodup →
        ((runReserves ws ⟨enqueueAll ts [], []⟩).1.filterMap id).Nodup) := by
  have hq : (enqueueAll ts []).length = ts.length := by
    rw [enqueueAll_eq]
    simp
  have hdrain : (runReserves ws ⟨enqueueAll ts [], []⟩).2.queue = [] :=
    runReserves_drain ws ⟨enqueueAll ts [], []⟩ (by rw [hq]; exact h)
  have hinv := runReserves_inv ws ⟨enqueueAll ts [], []⟩
  rw [hdrain] at hinv
  simp only [List.reverse_nil, List.append_nil] at hinv
  have hmain : (runReserves ws ⟨enqueueAll ts [], []⟩).1.filterMap id
      = ts.map encodeTask := by
    rw [hinv]
    show (PoolState.mk (enqueueAll ts []) []).queue.reverse = _
    rw [enqueueAll_eq]
    simp
  refine ⟨hmain, hdrain, ?_⟩
  intro hnd
  rw [hmain]
  refine List.Nodup.map ?_ hnd
  intro a b hab
  have := congrArg decodeTask hab
  rw [decodeTask_encodeTask, decodeTask_encodeTask] at this
  exact Option.some.inj this

/-- C1 witness: two distinct tasks, three interleaved reserve calls by two
workers. -/
theorem c1_reserve_exactly_once_witness :
    ([sampleTask, samplePlainTask].length ≤ ["w1", "w2", "w1"].length)
    ∧ ((runReserves ["w1", "w2", "w1"]
          ⟨enqueueAll [sampleTask, samplePlainTask] [], []⟩).1.filterMap id
        = [sampleTask, samplePlainTask].map encodeTask)
    ∧ (runReserves ["w1", "w2", "w1"]
        ⟨enqueueAll [sampleTask, samplePlainTask] [], []⟩).2.queue = []
    ∧ ([sampleTask, samplePlainTask].Nodup →
        ((runReserves ["w1", "w2", "w1"]
          ⟨enqueueAll [sampleTask, samplePlainTask] [], []⟩).1.filterMap id).Nodup) :=
  ⟨by decide,
   (c1_reserve_exactly_once [sampleTask, samplePlainTask] ["w1", "w2", "w1"]
     (by decide)).1,
   (c1_reserve_exactly_once [sampleTask, samplePlainTask] ["w1", "w2", "w1"]
     (by decide)).2.1,
   (c1_reserve_exactly_once [sampleTask, samplePlainTask] ["w1", "w2", "w1"]
     (by decide)).2.2⟩
